import Mathlib

/-!
Verification of the hinkelstein monorepo maintenance engine.

This file gives a shallow embedding of the core of the repository
(`src/foreach.ts`, `src/packages.ts`, `src/index.ts`) in Lean 4 and proves
properties of the embedded definitions.  JavaScript promises are modelled by
pure sequential functions (the code never runs two tasks concurrently),
machine strings by `String`/`List Char`, thrown errors by `Except`/`Option`,
and the file system by an explicit map from paths to contents.
-/

namespace Hinkelstein

/-! ## SequentialRunner: `forEach` (src/foreach.ts)

`forEach` reduces a list with a promise chain.  A task may produce the
JavaScript boolean `false` (stop), the boolean `true`, or a value; the next
step checks the accumulator with `=== false`.  `JSVal` models this
`boolean | T` union. -/

inductive JSVal (R : Type) where
  | bool : Bool → JSVal R
  | val : R → JSVal R
deriving DecidableEq, Repr

/-- One step of the `list.reduce` in `forEach`: if the accumulated outcome is
the boolean `false` the entry is skipped (the source prints a `Skipping`
banner), otherwise the task runs on the entry.  The instrumented state also
records which entries were invoked and which were skipped. -/
def forEachStep {T R : Type} (task : T → JSVal R) :
    JSVal R × List T × List T → T → JSVal R × List T × List T
  | (JSVal.bool false, inv, skp), entry => (JSVal.bool false, inv, skp ++ [entry])
  | (acc, inv, skp), entry =>
      match acc with
      | _ => (task entry, inv ++ [entry], skp)

/-- `forEach` from src/foreach.ts, instrumented with the list of entries the
task was invoked on and the list of entries reported as skipped.  The initial
accumulator is `Promise.resolve(true)`. -/
def forEachTrace {T R : Type} (list : List T) (task : T → JSVal R) :
    JSVal R × List T × List T :=
  list.foldl (forEachStep task) (JSVal.bool true, [], [])

/-- The result value of `forEach` from src/foreach.ts. -/
def forEach {T R : Type} (list : List T) (task : T → JSVal R) : JSVal R :=
  (forEachTrace list task).1

theorem forEachStep_not_false {T R : Type} (task : T → JSVal R)
    (acc : JSVal R) (h : acc ≠ JSVal.bool false) (inv skp : List T) (entry : T) :
    forEachStep task (acc, inv, skp) entry = (task entry, inv ++ [entry], skp) := by
  cases acc with
  | bool b => cases b with
    | false => exact absurd rfl h
    | true => rfl
  | val r => rfl

theorem foldl_forEachStep_false {T R : Type} (task : T → JSVal R) :
    ∀ (l : List T) (inv skp : List T),
      l.foldl (forEachStep task) (JSVal.bool false, inv, skp)
        = (JSVal.bool false, inv, skp ++ l) := by
  intro l
  induction l with
  | nil => intro inv skp; simp [forEachStep]
  | cons x rest ih =>
      intro inv skp
      simp only [List.foldl_cons, forEachStep]
      rw [ih]
      simp

theorem foldl_forEachStep_short_circuit {T R : Type} (task : T → JSVal R) :
    ∀ (l : List T) (k : Nat) (hk : k < l.length) (inv : List T) (acc : JSVal R),
      acc ≠ JSVal.bool false →
      task (l.get ⟨k, hk⟩) = JSVal.bool false →
      (∀ i (hi : i < l.length), i < k → task (l.get ⟨i, hi⟩) ≠ JSVal.bool false) →
      l.foldl (forEachStep task) (acc, inv, [])
        = (JSVal.bool false, inv ++ l.take (k+1), l.drop (k+1)) := by
  intro l
  induction l with
  | nil => intro k hk; exact absurd hk (by simp)
  | cons x rest ih =>
      intro k hk inv acc hacc hfalse hbefore
      rw [List.foldl_cons, forEachStep_not_false task acc hacc]
      cases k with
      | zero =>
          have hx : task x = JSVal.bool false := hfalse
          rw [hx, foldl_forEachStep_false]
          simp
      | succ k' =>
          have hxne : task x ≠ JSVal.bool false := by
            have := hbefore 0 (by simp) (Nat.succ_pos k')
            simpa using this
          have hk' : k' < rest.length := Nat.lt_of_succ_lt_succ hk
          have := ih k' hk' (inv ++ [x]) (task x) hxne hfalse
            (fun i hi hik =>
              hbefore (i+1) (Nat.succ_lt_succ hi) (Nat.succ_lt_succ hik))
          rw [this]
          simp

theorem foldl_forEachStep_no_false {T R : Type} (task : T → JSVal R) :
    ∀ (l : List T) (h : l ≠ []) (inv : List T) (acc : JSVal R),
      acc ≠ JSVal.bool false →
      (∀ x ∈ l, task x ≠ JSVal.bool false) →
      (l.foldl (forEachStep task) (acc, inv, [])).1 = task (l.getLast h) := by
  intro l
  induction l with
  | nil => intro h; exact absurd rfl h
  | cons x rest ih =>
      intro _ inv acc hacc hnofalse
      rw [List.foldl_cons, forEachStep_not_false task acc hacc]
      cases rest with
      | nil => simp
      | cons y rest' =>
          have hx : task x ≠ JSVal.bool false := hnofalse x (by simp)
          have := ih (by simp) (inv ++ [x]) (task x) hx
            (fun z hz => hnofalse z (List.mem_cons_of_mem x hz))
          rw [this]
          simp [List.getLast]

/-- Claim C4: if the task applied to the k-th item is the boolean `false`
(and no earlier task produced `false`), the task is invoked exactly on items
0..k, items k+1..N are reported as skipped and never invoked, and the
overall result is the early-termination value `false`; when no task returns
`false`, `forEach` resolves with the value produced for the last item. -/
theorem forEach_short_circuit {T R : Type} :
    (∀ (list : List T) (task : T → JSVal R) (k : Nat) (hk : k < list.length),
      task (list.get ⟨k, hk⟩) = JSVal.bool false →
      (∀ i (hi : i < list.length), i < k → task (list.get ⟨i, hi⟩) ≠ JSVal.bool false) →
      (forEachTrace list task).2.1 = list.take (k+1)
        ∧ (forEachTrace list task).2.2 = list.drop (k+1)
        ∧ (forEachTrace list task).1 = JSVal.bool false)
    ∧ (∀ (list : List T) (task : T → JSVal R) (h : list ≠ []),
      (∀ x ∈ list, task x ≠ JSVal.bool false) →
      forEach list task = task (list.getLast h)) := by
  constructor
  · intro list task k hk hfalse hbefore
    have := foldl_forEachStep_short_circuit task list k hk [] (JSVal.bool true)
      (by simp) hfalse hbefore
    unfold forEachTrace
    rw [this]
    simp
  · intro list task h hnofalse
    unfold forEach forEachTrace
    exact foldl_forEachStep_no_false task list h [] (JSVal.bool true) (by simp) hnofalse

/-- Task used in the concrete witness for claim C4. -/
def c4Task : String → JSVal String :=
  fun s => if s = "b" then JSVal.bool false else JSVal.val s

theorem forEach_short_circuit_witness :
    ((forEachTrace ["a", "b", "c"] c4Task).2.1 = ["a", "b"]
      ∧ (forEachTrace ["a", "b", "c"] c4Task).2.2 = ["c"]
      ∧ (forEachTrace ["a", "b", "c"] c4Task).1 = JSVal.bool false)
    ∧ forEach ["x", "y"] (fun s => JSVal.val s) = JSVal.val "y" := by
  constructor
  · exact (forEach_short_circuit (T := String) (R := String)).1
      ["a", "b", "c"] c4Task 1 (by decide) (by decide) (by decide)
  · exact (forEach_short_circuit (T := String) (R := String)).2
      ["x", "y"] (fun s => JSVal.val s) (by decide) (by decide)

/-- Claim C9: `forEach` over the empty list resolves with the boolean `true`
(the initial accumulator), invokes the task on nothing and skips nothing, so
its observable result is the same as that of a run whose last task returned
`true`. -/
theorem forEach_empty_resolves_true {T R : Type} :
    (∀ (task : T → JSVal R),
      forEachTrace ([] : List T) task = (JSVal.bool true, [], [])
        ∧ forEach ([] : List T) task = JSVal.bool true)
    ∧ (∀ (task : T → JSVal R) (x : T),
      forEach ([] : List T) task = forEach [x] (fun _ => JSVal.bool true)) := by
  constructor
  · intro task; exact ⟨rfl, rfl⟩
  · intro task x; rfl

/-! ## ReleaseResolver: bump inference (src/index.ts `isBreakingChange`,
`getNextVersion`)

A parsed conventional commit as far as the release logic inspects it:
`type` and `footer` may both be absent in the parser's output. -/

structure CommitMessage where
  type : Option String
  footer : Option String
deriving DecidableEq, Repr

/-- The `'BREAKING CHANGE:\n'` needle of `isBreakingChange`. -/
def breakingMarker : List Char := "BREAKING CHANGE:\n".toList

/-- `String.prototype.indexOf(needle) > -1`: the needle occurs as a
contiguous subsequence of the haystack, checked at each starting position. -/
def containsSeq (needle : List Char) : List Char → Bool
  | [] => needle.isPrefixOf ([] : List Char)
  | c :: t => needle.isPrefixOf (c :: t) || containsSeq needle t

/-- `isBreakingChange` from src/index.ts:
`Boolean(commit.footer && commit.footer.indexOf('BREAKING CHANGE:\n') > -1)`.
A missing (or, in JS, empty — on which the substring test is false anyway)
footer yields `false`. -/
def isBreakingChange (c : CommitMessage) : Bool :=
  match c.footer with
  | none => false
  | some f => containsSeq breakingMarker f.toList

theorem containsSeq_correct (needle hay : List Char) :
    containsSeq needle hay = true ↔ needle <:+: hay := by
  induction hay with
  | nil =>
      simp only [containsSeq, List.infix_nil]
      cases needle with
      | nil => simp [List.isPrefixOf]
      | cons c t => simp [List.isPrefixOf]
  | cons c t ih =>
      simp only [containsSeq, Bool.or_eq_true, List.isPrefixOf_iff_prefix, ih,
        List.infix_cons_iff]

/-- The `typeToReleaseIndex` object of `getNextVersion`: `{fix: 0, feat: 1}`;
any other key reads as `undefined` (`none`). -/
def typeToReleaseIndex (t : Option String) : Option Nat :=
  if t = some "fix" then some 0 else if t = some "feat" then some 1 else none

/-- JavaScript `x || y` for `x` a possibly-undefined number: `undefined` and
`0` are falsy and select `y`. -/
def jsOrNat : Option Nat → Nat → Nat
  | some n, d => if n = 0 then d else n
  | none, d => d

/-- One step of the `data.commits.reduce` in `getNextVersion`: the source
first computes `result = release > (t||0) ? release : (t||release)` and then
overrides it with `2` for a breaking change. -/
def releaseStep (release : Nat) (c : CommitMessage) : Nat :=
  if isBreakingChange c then 2
  else if release > jsOrNat (typeToReleaseIndex c.type) 0 then release
  else jsOrNat (typeToReleaseIndex c.type) release

/-- The `relaseIndex` computed by `getNextVersion`: reduce over the kept
commits starting from 0. -/
def releaseIndex (commits : List CommitMessage) : Nat :=
  commits.foldl releaseStep 0

/-- The `releases` array of `getNextVersion`. -/
def releases : List String := ["patch", "minor", "major"]

/-- The escalation a single commit demands, as the spec words it: a breaking
change forces `major` (2), a `feat` commit at least `minor` (1), `fix` and
unrecognized types stay at `patch` (0). -/
def commitEscalation (c : CommitMessage) : Nat :=
  if isBreakingChange c then 2
  else if c.type = some "feat" then 1
  else 0

theorem commitEscalation_le_two (c : CommitMessage) : commitEscalation c ≤ 2 := by
  unfold commitEscalation
  split_ifs <;> omega

theorem releaseStep_eq_max (release : Nat) (c : CommitMessage)
    (h : release ≤ 2) : releaseStep release c = max release (commitEscalation c) := by
  unfold releaseStep commitEscalation
  by_cases hb : isBreakingChange c
  · simp only [hb, if_true]
    omega
  · simp only [hb, if_false]
    by_cases hfeat : c.type = some "feat"
    · have hne : ¬ c.type = some "fix" := by rw [hfeat]; decide
      have ht : typeToReleaseIndex c.type = some 1 := by
        unfold typeToReleaseIndex; rw [if_neg hne, if_pos hfeat]
      rw [ht, if_pos hfeat]
      simp only [jsOrNat]
      split_ifs <;> omega
    · by_cases hfix : c.type = some "fix"
      · have ht : typeToReleaseIndex c.type = some 0 := by
          unfold typeToReleaseIndex; rw [if_pos hfix]
        rw [ht, if_neg hfeat]
        simp only [jsOrNat]
        split_ifs <;> omega
      · have ht : typeToReleaseIndex c.type = none := by
          unfold typeToReleaseIndex; rw [if_neg hfix, if_neg hfeat]
        rw [ht, if_neg hfeat]
        simp only [jsOrNat]
        split_ifs <;> omega

theorem releaseStep_le_two (release : Nat) (c : CommitMessage)
    (h : release ≤ 2) : releaseStep release c ≤ 2 := by
  rw [releaseStep_eq_max release c h]
  have := commitEscalation_le_two c
  omega

theorem foldl_releaseStep_eq_max (commits : List CommitMessage) :
    ∀ (s : Nat), s ≤ 2 →
      commits.foldl releaseStep s
        = commits.foldl (fun m c => max m (commitEscalation c)) s := by
  induction commits with
  | nil => intro s _; rfl
  | cons c rest ih =>
      intro s hs
      simp only [List.foldl_cons]
      rw [releaseStep_eq_max s c hs]
      have h2 : max s (commitEscalation c) ≤ 2 := by
        have := commitEscalation_le_two c
        omega
      exact ih _ h2

/-- Claim C5: for every non-empty sequence of kept commits the inferred bump
index is the maximum escalation over the commits — starting at `patch` (0),
`feat` escalates to at least `minor` (1), a recognized breaking change forces
`major` (2), and `fix` or unrecognized types never escalate past `patch`. -/
theorem releaseIndex_is_max_escalation (commits : List CommitMessage)
    (_h : commits ≠ []) :
    releaseIndex commits
      = commits.foldl (fun m c => max m (commitEscalation c)) 0 := by
  exact foldl_releaseStep_eq_max commits 0 (by omega)

theorem releaseIndex_is_max_escalation_witness :
    releaseIndex [⟨some "fix", none⟩, ⟨some "feat", none⟩]
      = [⟨some "fix", none⟩, (⟨some "feat", none⟩ : CommitMessage)].foldl
          (fun m c => max m (commitEscalation c)) 0 :=
  releaseIndex_is_max_escalation [⟨some "fix", none⟩, ⟨some "feat", none⟩] (by decide)

/-! ## ReleaseResolver: next version (src/index.ts `getNextVersion`)

The external `semver` library is out of scope of the repository; its `inc`
operation on plain numeric `major.minor.patch` versions is modelled from the
spec. -/

structure SemVer where
  major : Nat
  minor : Nat
  patch : Nat
deriving DecidableEq, Repr

/-- Modelled from the spec: the external semver library's `inc` — increment
under semantic-version rules.  `major` bumps the major part and zeroes the
rest, `minor` bumps the minor part and zeroes the patch, `patch` bumps the
patch part; any other release string leaves the version unchanged (never
reached: the inferred release index is at most 2). -/
def semverInc (v : SemVer) (release : String) : SemVer :=
  if release = "major" then ⟨v.major + 1, 0, 0⟩
  else if release = "minor" then ⟨v.major, v.minor + 1, 0⟩
  else if release = "patch" then ⟨v.major, v.minor, v.patch + 1⟩
  else v

/-- Strict semantic-version ordering on numeric versions (lexicographic). -/
def SemVer.lt (a b : SemVer) : Prop :=
  a.major < b.major
    ∨ (a.major = b.major
        ∧ (a.minor < b.minor ∨ (a.minor = b.minor ∧ a.patch < b.patch)))

def SemVer.le (a b : SemVer) : Prop := a = b ∨ SemVer.lt a b

instance : DecidablePred (fun p : SemVer × SemVer => SemVer.lt p.1 p.2) := by
  intro p
  unfold SemVer.lt
  infer_instance

/-- The version-choosing tail of `getNextVersion` from src/index.ts: the
release name is `releases[relaseIndex]`; if `data.lastVersion` is set the
next version is `semver.inc(lastVersion, release)`, otherwise it is the
version already in the manifest (`data.pkg.version`). -/
def getNextVersion (commits : List CommitMessage) (lastVersion : Option SemVer)
    (pkgVersion : SemVer) : String × SemVer :=
  let rel := releases.getD (releaseIndex commits) ""
  match lastVersion with
  | some lv => (rel, semverInc lv rel)
  | none => (rel, pkgVersion)

theorem semverInc_le (v : SemVer) (release : String) :
    SemVer.le v (semverInc v release) := by
  unfold semverInc SemVer.le SemVer.lt
  split_ifs
  · refine Or.inr (Or.inl ?_)
    show v.major < v.major + 1
    omega
  · refine Or.inr (Or.inr ⟨rfl, Or.inl ?_⟩)
    show v.minor < v.minor + 1
    omega
  · refine Or.inr (Or.inr ⟨rfl, Or.inr ⟨rfl, ?_⟩⟩)
    show v.patch < v.patch + 1
    omega
  · exact Or.inl rfl

/-- Claim C6: when a last published version exists, `nextVersion` is that
version incremented by the inferred bump under semantic-version rules, hence
at least the last published version in semver order; when none exists,
`nextVersion` is the version declared in the manifest, with no bump
applied. -/
theorem getNextVersion_monotone (commits : List CommitMessage)
    (lv pkgVersion : SemVer) :
    (getNextVersion commits (some lv) pkgVersion).2
        = semverInc lv (releases.getD (releaseIndex commits) "")
      ∧ SemVer.le lv (getNextVersion commits (some lv) pkgVersion).2
      ∧ (getNextVersion commits none pkgVersion).2 = pkgVersion := by
  refine ⟨rfl, ?_, rfl⟩
  exact semverInc_le lv (releases.getD (releaseIndex commits) "")

/-- Claim C10: a commit is recognized as a breaking change exactly when its
footer is present and contains the substring `'BREAKING CHANGE:'` directly
followed by a newline; a single-line `'BREAKING CHANGE: description'` footer
is not recognized and does not force a major bump. -/
theorem isBreakingChange_iff_marker :
    (∀ c : CommitMessage,
      isBreakingChange c = true
        ↔ ∃ f, c.footer = some f ∧ breakingMarker <:+: f.toList)
    ∧ isBreakingChange ⟨some "fix", some "BREAKING CHANGE: description"⟩ = false
    ∧ releaseIndex [⟨some "fix", some "BREAKING CHANGE: description"⟩] = 0 := by
  refine ⟨?_, by decide, by decide⟩
  intro c
  unfold isBreakingChange
  cases hf : c.footer with
  | none => simp
  | some f =>
      rw [containsSeq_correct]
      constructor
      · intro h; exact ⟨f, rfl, h⟩
      · rintro ⟨g, hg, hinf⟩
        cases hg
        exact hinf

/-! ## ManifestPatcher: version rewrite (src/index.ts
`incrementPackageVersion`, `updateDependencies`)

Both functions rewrite the manifest text with a regular expression of the
shape `^(\s*"<key>"\s*:\s*")\d+(?:\.\d+(?:\.\d+)?)?("\s*(?:,\s*)?)$` in
multiline mode, replacing the version value by the target version.  With the
`m` flag the pattern is anchored to single lines, so the manifest is modelled
as its list of lines and the rewrite as a per-line function.  The matcher
below is a direct transcription of the regular expression as a character
parser; a line's whitespace is the `\s` characters that can occur inside a
line (the Unicode space class members are omitted). -/

def isWsChar (c : Char) : Bool :=
  c == ' ' || c == '\t' || c == '\r' || c == '\x0b' || c == '\x0c'

def expectChar (c : Char) : List Char → Option (List Char)
  | [] => none
  | x :: r => if x = c then some r else none

def expectSeq : List Char → List Char → Option (List Char)
  | [], l => some l
  | c :: p, l =>
    match expectChar c l with
    | some r => expectSeq p r
    | none => none

/-- The `\d+(?:\.\d+(?:\.\d+)?)?` version group: one to three dot-separated
digit runs.  Returns the matched characters and the rest of the line. -/
def parseVer (l : List Char) : Option (List Char × List Char) :=
  let d1 := l.takeWhile Char.isDigit
  let r1 := l.dropWhile Char.isDigit
  if d1 = [] then none
  else
    match r1 with
    | '.' :: r2 =>
      let d2 := r2.takeWhile Char.isDigit
      let r3 := r2.dropWhile Char.isDigit
      if d2 = [] then some (d1, r1)
      else
        match r3 with
        | '.' :: r4 =>
          let d3 := r4.takeWhile Char.isDigit
          let r5 := r4.dropWhile Char.isDigit
          if d3 = [] then some (d1 ++ '.' :: d2, r3)
          else some (d1 ++ '.' :: d2 ++ '.' :: d3, r5)
        | _ => some (d1 ++ '.' :: d2, r3)
    | _ => some (d1, r1)

/-- Match one line against
`^(\s*"<key>"\s*:\s*")\d+(?:\.\d+(?:\.\d+)?)?("\s*(?:,\s*)?)$`.
On success returns the first capture group, the matched version characters,
and the tail beginning with the closing quote, whose concatenation is the
whole line. -/
def matchVersionLine (key line : List Char) : Option (List Char × List Char × List Char) :=
  match expectChar '"' (line.dropWhile isWsChar) with
  | none => none
  | some a1 =>
    match expectSeq key a1 with
    | none => none
    | some a2 =>
      match expectChar '"' a2 with
      | none => none
      | some a3 =>
        match expectChar ':' (a3.dropWhile isWsChar) with
        | none => none
        | some a4 =>
          match expectChar '"' (a4.dropWhile isWsChar) with
          | none => none
          | some a5 =>
            match parseVer a5 with
            | none => none
            | some (ver, a6) =>
              match expectChar '"' a6 with
              | none => none
              | some a7 =>
                let tailOk :=
                  match a7.dropWhile isWsChar with
                  | [] => true
                  | ',' :: r => decide (r.dropWhile isWsChar = [])
                  | _ => false
                if tailOk then
                  some (line.takeWhile isWsChar
                          ++ '"' :: (key ++ '"' :: (a3.takeWhile isWsChar
                          ++ ':' :: (a4.takeWhile isWsChar ++ ['"']))),
                        ver, a6)
                else none

/-- `String.prototype.replace` for this anchored pattern on one line:
substitute the target version for the version group, keeping both capture
groups; a line that does not match is returned unchanged. -/
def rewriteVersionLine (key next line : List Char) : List Char :=
  match matchVersionLine key line with
  | some (g1, _, g2) => g1 ++ next ++ g2
  | none => line

/-- `incrementPackageVersion` from src/index.ts on the manifest's lines. -/
def incrementPackageVersion (next : List Char) (lines : List (List Char)) :
    List (List Char) :=
  lines.map (rewriteVersionLine "version".toList next)

/-- The per-dependency rewrite performed by `updateDependencies` from
src/index.ts on the manifest's lines. -/
def updateDependencyVersions (dependency next : List Char)
    (lines : List (List Char)) : List (List Char) :=
  lines.map (rewriteVersionLine dependency next)

theorem expectChar_eq (c : Char) (l r : List Char) (h : expectChar c l = some r) :
    l = c :: r := by
  cases l with
  | nil => exact absurd h (by simp [expectChar])
  | cons x t =>
      by_cases hx : x = c
      · simp only [expectChar, if_pos hx] at h
        injection h with h'
        rw [hx, h']
      · simp [expectChar, hx] at h

theorem expectSeq_eq : ∀ (p l r : List Char), expectSeq p l = some r → l = p ++ r := by
  intro p
  induction p with
  | nil =>
      intro l r h
      simpa [expectSeq] using h
  | cons c p' ih =>
      intro l r h
      unfold expectSeq at h
      cases hc : expectChar c l with
      | none => rw [hc] at h; exact absurd h (by simp)
      | some l' =>
          rw [hc] at h
          rw [expectChar_eq c l l' hc, ih l' r h]
          rfl

theorem parseVer_append (l v r : List Char) (h : parseVer l = some (v, r)) :
    l = v ++ r := by
  simp only [parseVer] at h
  by_cases h1 : l.takeWhile Char.isDigit = []
  · simp [h1] at h
  · rw [if_neg h1] at h
    split at h
    · rename_i r2 heq2
      by_cases h2 : r2.takeWhile Char.isDigit = []
      · rw [if_pos h2] at h
        injection h with h'
        rw [Prod.mk.injEq] at h'
        obtain ⟨hv, hr⟩ := h'
        calc l = l.takeWhile Char.isDigit ++ l.dropWhile Char.isDigit :=
              (List.takeWhile_append_dropWhile ..).symm
          _ = v ++ r := by rw [hv, hr]
      · rw [if_neg h2] at h
        split at h
        · rename_i r4 heq4
          by_cases h3 : r4.takeWhile Char.isDigit = []
          · rw [if_pos h3] at h
            injection h with h'
            rw [Prod.mk.injEq] at h'
            obtain ⟨hv, hr⟩ := h'
            calc l = l.takeWhile Char.isDigit ++ l.dropWhile Char.isDigit :=
                  (List.takeWhile_append_dropWhile ..).symm
              _ = l.takeWhile Char.isDigit ++ '.' :: r2 := by rw [heq2]
              _ = l.takeWhile Char.isDigit
                    ++ '.' :: (r2.takeWhile Char.isDigit ++ r2.dropWhile Char.isDigit) := by
                  rw [List.takeWhile_append_dropWhile]
              _ = (l.takeWhile Char.isDigit ++ '.' :: r2.takeWhile Char.isDigit)
                    ++ r2.dropWhile Char.isDigit := by simp
              _ = v ++ r := by rw [hv, hr]
          · rw [if_neg h3] at h
            injection h with h'
            rw [Prod.mk.injEq] at h'
            obtain ⟨hv, hr⟩ := h'
            calc l = l.takeWhile Char.isDigit ++ l.dropWhile Char.isDigit :=
                  (List.takeWhile_append_dropWhile ..).symm
              _ = l.takeWhile Char.isDigit ++ '.' :: r2 := by rw [heq2]
              _ = l.takeWhile Char.isDigit
                    ++ '.' :: (r2.takeWhile Char.isDigit ++ r2.dropWhile Char.isDigit) := by
                  rw [List.takeWhile_append_dropWhile]
              _ = l.takeWhile Char.isDigit
                    ++ '.' :: (r2.takeWhile Char.isDigit ++ '.' :: r4) := by rw [heq4]
              _ = l.takeWhile Char.isDigit
                    ++ '.' :: (r2.takeWhile Char.isDigit
                    ++ '.' :: (r4.takeWhile Char.isDigit ++ r4.dropWhile Char.isDigit)) := by
                  rw [List.takeWhile_append_dropWhile]
              _ = (l.takeWhile Char.isDigit ++ '.' :: r2.takeWhile Char.isDigit
                    ++ '.' :: r4.takeWhile Char.isDigit) ++ r4.dropWhile Char.isDigit := by
                  simp
              _ = v ++ r := by rw [hv, hr]
        · injection h with h'
          rw [Prod.mk.injEq] at h'
          obtain ⟨hv, hr⟩ := h'
          calc l = l.takeWhile Char.isDigit ++ l.dropWhile Char.isDigit :=
                (List.takeWhile_append_dropWhile ..).symm
            _ = l.takeWhile Char.isDigit ++ '.' :: r2 := by rw [heq2]
            _ = l.takeWhile Char.isDigit
                  ++ '.' :: (r2.takeWhile Char.isDigit ++ r2.dropWhile Char.isDigit) := by
                rw [List.takeWhile_append_dropWhile]
            _ = (l.takeWhile Char.isDigit ++ '.' :: r2.takeWhile Char.isDigit)
                  ++ r2.dropWhile Char.isDigit := by simp
            _ = v ++ r := by rw [hv, hr]
    · injection h with h'
      rw [Prod.mk.injEq] at h'
      obtain ⟨hv, hr⟩ := h'
      calc l = l.takeWhile Char.isDigit ++ l.dropWhile Char.isDigit :=
            (List.takeWhile_append_dropWhile ..).symm
        _ = v ++ r := by rw [hv, hr]

theorem matchVersionLine_core (key line a1 a2 a3 a4 a5 ver a6 : List Char)
    (heq1 : expectChar '"' (line.dropWhile isWsChar) = some a1)
    (heq2 : expectSeq key a1 = some a2)
    (heq3 : expectChar '"' a2 = some a3)
    (heq4 : expectChar ':' (a3.dropWhile isWsChar) = some a4)
    (heq5 : expectChar '"' (a4.dropWhile isWsChar) = some a5)
    (heq6 : parseVer a5 = some (ver, a6)) :
    line = (line.takeWhile isWsChar
        ++ '"' :: (key ++ '"' :: (a3.takeWhile isWsChar
        ++ ':' :: (a4.takeWhile isWsChar ++ ['"'])))) ++ ver ++ a6 := by
  calc line = line.takeWhile isWsChar ++ line.dropWhile isWsChar :=
        (List.takeWhile_append_dropWhile ..).symm
    _ = line.takeWhile isWsChar ++ '"' :: a1 := by rw [expectChar_eq _ _ _ heq1]
    _ = line.takeWhile isWsChar ++ '"' :: (key ++ a2) := by
        rw [← expectSeq_eq key a1 a2 heq2]
    _ = line.takeWhile isWsChar ++ '"' :: (key ++ '"' :: a3) := by
        rw [expectChar_eq _ _ _ heq3]
    _ = line.takeWhile isWsChar ++ '"' :: (key
          ++ '"' :: (a3.takeWhile isWsChar ++ a3.dropWhile isWsChar)) := by
        rw [List.takeWhile_append_dropWhile]
    _ = line.takeWhile isWsChar ++ '"' :: (key
          ++ '"' :: (a3.takeWhile isWsChar ++ ':' :: a4)) := by
        rw [expectChar_eq _ _ _ heq4]
    _ = line.takeWhile isWsChar ++ '"' :: (key
          ++ '"' :: (a3.takeWhile isWsChar
          ++ ':' :: (a4.takeWhile isWsChar ++ a4.dropWhile isWsChar))) := by
        rw [List.takeWhile_append_dropWhile]
    _ = line.takeWhile isWsChar ++ '"' :: (key
          ++ '"' :: (a3.takeWhile isWsChar
          ++ ':' :: (a4.takeWhile isWsChar ++ '"' :: a5))) := by
        rw [expectChar_eq _ _ _ heq5]
    _ = line.takeWhile isWsChar ++ '"' :: (key
          ++ '"' :: (a3.takeWhile isWsChar
          ++ ':' :: (a4.takeWhile isWsChar ++ '"' :: (ver ++ a6)))) := by
        rw [← parseVer_append a5 ver a6 heq6]
    _ = (line.takeWhile isWsChar
          ++ '"' :: (key ++ '"' :: (a3.takeWhile isWsChar
          ++ ':' :: (a4.takeWhile isWsChar ++ ['"'])))) ++ ver ++ a6 := by
        simp

theorem matchVersionLine_append (key line g1 v g2 : List Char)
    (h : matchVersionLine key line = some (g1, v, g2)) : line = g1 ++ v ++ g2 := by
  unfold matchVersionLine at h
  split at h
  · exact absurd h (by simp)
  · rename_i a1 heq1
    split at h
    · exact absurd h (by simp)
    · rename_i a2 heq2
      split at h
      · exact absurd h (by simp)
      · rename_i a3 heq3
        split at h
        · exact absurd h (by simp)
        · rename_i a4 heq4
          split at h
          · exact absurd h (by simp)
          · rename_i a5 heq5
            split at h
            · exact absurd h (by simp)
            · rename_i ver a6 heq6
              split at h
              · exact absurd h (by simp)
              · rename_i a7 heq7
                split at h
                · simp only [] at h
                  rw [if_pos trivial] at h
                  injection h with h'
                  rw [Prod.mk.injEq, Prod.mk.injEq] at h'
                  obtain ⟨hg1, hv, hg2⟩ := h'
                  subst hg1; subst hv; subst hg2
                  exact matchVersionLine_core key line a1 a2 a3 a4 a5 ver a6
                    heq1 heq2 heq3 heq4 heq5 heq6
                · simp only [] at h
                  split at h
                  · injection h with h'
                    rw [Prod.mk.injEq, Prod.mk.injEq] at h'
                    obtain ⟨hg1, hv, hg2⟩ := h'
                    subst hg1; subst hv; subst hg2
                    exact matchVersionLine_core key line a1 a2 a3 a4 a5 ver a6
                      heq1 heq2 heq3 heq4 heq5 heq6
                  · exact absurd h (by simp)
                · simp at h

/-- Claim C8: the version-rewrite of `incrementPackageVersion` and
`updateDependencies` changes only lines matching
`"<key>": "<digits>(.digits(.digits)?)?"` — a matched line decomposes into
the capture groups around the version value, any line that does not match
(for example one with the prerelease value `"2.0.0-beta.1"`) is kept
character-for-character, and the rewrite is the identity on manifests with
no matching line. -/
theorem versionRewrite_only_numeric_lines :
    (∀ key next line, matchVersionLine key line = none →
      rewriteVersionLine key next line = line)
    ∧ (∀ key line g1 v g2, matchVersionLine key line = some (g1, v, g2) →
      line = g1 ++ v ++ g2)
    ∧ matchVersionLine "version".toList "  \"version\": \"2.0.0-beta.1\",".toList = none
    ∧ rewriteVersionLine "version".toList "1.3.0".toList
        "  \"version\": \"1.2.3\",".toList = "  \"version\": \"1.3.0\",".toList
    ∧ (∀ next lines, (∀ l ∈ lines, matchVersionLine "version".toList l = none) →
      incrementPackageVersion next lines = lines)
    ∧ (∀ dep next lines, (∀ l ∈ lines, matchVersionLine dep l = none) →
      updateDependencyVersions dep next lines = lines) := by
  refine ⟨?_, matchVersionLine_append, by decide, by decide, ?_, ?_⟩
  · intro key next line h
    unfold rewriteVersionLine
    rw [h]
  · intro next lines h
    unfold incrementPackageVersion
    conv_rhs => rw [← List.map_id lines]
    refine List.map_congr_left ?_
    intro l hl
    unfold rewriteVersionLine
    rw [h l hl]
    rfl
  · intro dep next lines h
    unfold updateDependencyVersions
    conv_rhs => rw [← List.map_id lines]
    refine List.map_congr_left ?_
    intro l hl
    unfold rewriteVersionLine
    rw [h l hl]
    rfl

theorem versionRewrite_only_numeric_lines_witness :
    rewriteVersionLine "version".toList "9.9.9".toList
        "  \"version\": \"2.0.0-beta.1\",".toList
      = "  \"version\": \"2.0.0-beta.1\",".toList
    ∧ incrementPackageVersion "9.9.9".toList
        ["\x7b".toList, "  \"name\": \"pkg\",".toList,
         "  \"version\": \"2.0.0-beta.1\"".toList, "\x7d".toList]
      = ["\x7b".toList, "  \"name\": \"pkg\",".toList,
         "  \"version\": \"2.0.0-beta.1\"".toList, "\x7d".toList] := by
  constructor
  · exact versionRewrite_only_numeric_lines.1 "version".toList "9.9.9".toList
      "  \"version\": \"2.0.0-beta.1\",".toList (by decide)
  · exact versionRewrite_only_numeric_lines.2.2.2.2.1 "9.9.9".toList
      ["\x7b".toList, "  \"name\": \"pkg\",".toList,
       "  \"version\": \"2.0.0-beta.1\"".toList, "\x7d".toList]
      (by decide)

/-! ## ManifestPatcher: scoped patch-and-restore (src/packages.ts
`withPatchedPackageJson`)

The Host file system is modelled as a map from paths to file contents.  The
JSON read-patch-write step (`readJson` → `patchPackageJson` → `writeJson`)
is abstracted into a total content transformer `patchFn`, and the wrapped
operation `fn` is an arbitrary state transformer that may finish with an
error (a rejected promise) — the pair it returns is the file system it
leaves behind together with the optional error. -/

def FS : Type := String → Option String

/-- `host.writeJson` / plain file write: overwrite one path. -/
def fsWrite (fs : FS) (p content : String) : FS :=
  fun q => if q = p then some content else fs q

/-- `host.move(src, dst, {clobber: true})`: rename with overwrite; rejects
when the source does not exist. -/
def fsMove (fs : FS) (src dst : String) : FS × Option String :=
  match fs src with
  | none => (fs, some "move: no such file")
  | some c => (fun q => if q = dst then some c else if q = src then none else fs q, none)

/-- `withPatchedPackageJson` from src/packages.ts: copy the manifest to the
`.orig` backup, write the patched manifest, run `fn`, and move the backup
back over the manifest on every exit path; an error raised by `fn` is
re-raised after the restore (and an error of the restoring move itself takes
precedence, as in a rejected promise chain). -/
def withPatchedPackageJson (packageJsonPath packageJsonBackupPath : String)
    (patchFn : String → String) (fn : FS → FS × Option String) (fs : FS) :
    FS × Option String :=
  match fs packageJsonPath with
  | none => (fs, some "copy: no such file")
  | some orig =>
    let fs1 := fsWrite fs packageJsonBackupPath orig
    let fs2 := fsWrite fs1 packageJsonPath (patchFn orig)
    match fn fs2 with
    | (fs3, some e) =>
        match fsMove fs3 packageJsonBackupPath packageJsonPath with
        | (fs4, some me) => (fs4, some me)
        | (fs4, none) => (fs4, some e)
    | (fs3, none) => fsMove fs3 packageJsonBackupPath packageJsonPath

/-- Claim C3: whenever the wrapped operation does not touch the backup file,
`withPatchedPackageJson` leaves the manifest byte-identical to its pre-patch
contents, both when `fn` succeeds and when it throws, and the error outcome
is exactly the error of `fn` (none on success, re-raised on failure). -/
theorem withPatchedPackageJson_restores (packageJsonPath packageJsonBackupPath : String)
    (patchFn : String → String) (fn : FS → FS × Option String) (fs : FS)
    (orig : String)
    (horig : fs packageJsonPath = some orig)
    (hne : packageJsonBackupPath ≠ packageJsonPath)
    (hfn : ∀ s : FS, (fn s).1 packageJsonBackupPath = s packageJsonBackupPath) :
    (withPatchedPackageJson packageJsonPath packageJsonBackupPath patchFn fn fs).1
        packageJsonPath = some orig
      ∧ (withPatchedPackageJson packageJsonPath packageJsonBackupPath patchFn fn fs).2
        = (fn (fsWrite (fsWrite fs packageJsonBackupPath orig)
            packageJsonPath (patchFn orig))).2 := by
  unfold withPatchedPackageJson
  rw [horig]
  simp only []
  set fs2 := fsWrite (fsWrite fs packageJsonBackupPath orig) packageJsonPath (patchFn orig)
    with hfs2
  have hbackup : (fn fs2).1 packageJsonBackupPath = some orig := by
    rw [hfn fs2, hfs2]
    unfold fsWrite
    rw [if_neg hne, if_pos rfl]
  cases hres : fn fs2 with
  | mk fs3 err =>
      have hb3 : fs3 packageJsonBackupPath = some orig := by
        rw [← hbackup, hres]
      cases err with
      | none =>
          simp only [fsMove, hb3]
          constructor
          · rw [if_pos trivial]
          · trivial
      | some e =>
          simp only [fsMove, hb3]
          constructor
          · rw [if_pos trivial]
          · trivial

/-- Wrapped operation used in the concrete witness for claim C3: it
overwrites the manifest and then fails. -/
def c3Fn : FS → FS × Option String :=
  fun s => (fsWrite s "packages/a/package.json" "garbage", some "boom")

/-- Starting file system used in the concrete witness for claim C3. -/
def c3FS : FS :=
  fun q => if q = "packages/a/package.json" then some "ORIG" else none

theorem withPatchedPackageJson_restores_witness :
    (withPatchedPackageJson "packages/a/package.json" "packages/a/package.json.orig"
        (fun s => s) c3Fn c3FS).1 "packages/a/package.json" = some "ORIG"
      ∧ (withPatchedPackageJson "packages/a/package.json" "packages/a/package.json.orig"
        (fun s => s) c3Fn c3FS).2
        = (c3Fn (fsWrite (fsWrite c3FS "packages/a/package.json.orig" "ORIG")
            "packages/a/package.json" ((fun s => s) "ORIG"))).2 :=
  withPatchedPackageJson_restores "packages/a/package.json"
    "packages/a/package.json.orig" (fun s => s) c3Fn c3FS "ORIG"
    (by rfl) (by decide)
    (fun s => by
      show fsWrite s "packages/a/package.json" "garbage" "packages/a/package.json.orig"
        = s "packages/a/package.json.orig"
      unfold fsWrite
      rw [if_neg (by decide)])

/-! ## PackageGraph: dependency ordering (src/packages.ts `findPkg`,
`containsDependency`, `sortDependencys`, `getOrderedPackages`)

A manifest is modelled with the fields the ordering logic reads; the two
dependency maps are association lists of name → version-range.
`Array.prototype.sort` is modelled as V8's insertion sort for short arrays:
each element is inserted into the sorted prefix by scanning it from the
right, shifting while `comparefn(prefixElement, element) > 0` and stopping
at the first non-positive comparison.  A comparator throw (the
`findPkg` failure) is propagated through `Except`. -/

structure PackageJson where
  name : String
  version : String
  devDependencies : List (String × String)
  dependencies : List (String × String)
deriving DecidableEq, Repr

/-- `containsDependency` from src/packages.ts: the name occurs as a key of
`devDependencies` or `dependencies`. -/
def containsDependency (name : String) (pkg : PackageJson) : Bool :=
  pkg.devDependencies.any (fun kv => kv.1 == name)
    || pkg.dependencies.any (fun kv => kv.1 == name)

/-- `findPkg` from src/packages.ts: first manifest whose `name` equals the
needle; throws `'No matching package.json found'` otherwise. -/
def findPkg (needle : String) (pkgs : List PackageJson) : Except String PackageJson :=
  match pkgs.find? (fun haystack => needle == haystack.name) with
  | some pkg => .ok pkg
  | none => .error "No matching package.json found"

/-- The comparator passed to `list.sort` in `sortDependencys`: `-1` when the
right entry's manifest lists the left entry, `1` when the left entry's
manifest lists the right entry, `0` otherwise; `findPkg` failures throw. -/
def comparatorE (pkgs : List PackageJson) (left right : String) : Except String Int :=
  match findPkg right pkgs with
  | .error e => .error e
  | .ok pr =>
    if containsDependency left pr then .ok (-1)
    else
      match findPkg left pkgs with
      | .error e => .error e
      | .ok pl => if containsDependency right pl then .ok 1 else .ok 0

/-- Whether package `a`'s manifest lists package `b` (dev or regular):
"`a` depends on `b`".  An unresolvable `a` has no dependencies. -/
def dependsOn (pkgs : List PackageJson) (a b : String) : Bool :=
  match findPkg a pkgs with
  | .ok p => containsDependency b p
  | .error _ => false

/-- The comparator's value when both entries resolve. -/
def cmpP (pkgs : List PackageJson) (left right : String) : Int :=
  if dependsOn pkgs right left then -1
  else if dependsOn pkgs left right then 1
  else 0

/-- Insert `x` into the reversed sorted prefix, scanning from the right and
stopping at the first prefix element `y` with `cmp y x ≤ 0` (V8 insertion
sort); the comparator may throw. -/
def insRevE {α : Type} (cmp : α → α → Except String Int) (x : α) :
    List α → Except String (List α)
  | [] => .ok [x]
  | y :: r =>
    match cmp y x with
    | .error e => .error e
    | .ok o =>
      if o > 0 then
        match insRevE cmp x r with
        | .error e => .error e
        | .ok rest => .ok (y :: rest)
      else .ok (x :: y :: r)

def jsInsertE {α : Type} (cmp : α → α → Except String Int) (sorted : List α)
    (x : α) : Except String (List α) :=
  match insRevE cmp x sorted.reverse with
  | .error e => .error e
  | .ok rr => .ok rr.reverse

def jsSortAuxE {α : Type} (cmp : α → α → Except String Int) :
    List α → List α → Except String (List α)
  | acc, [] => .ok acc
  | acc, x :: rest =>
    match jsInsertE cmp acc x with
    | .error e => .error e
    | .ok acc2 => jsSortAuxE cmp acc2 rest

/-- `Array.prototype.sort` with a throwing comparator. -/
def jsSortE {α : Type} (cmp : α → α → Except String Int) (l : List α) :
    Except String (List α) :=
  jsSortAuxE cmp [] l

/-- `sortDependencys` from src/packages.ts. -/
def sortDependencys (list : List String) (pkgs : List PackageJson) :
    Except String (List String) :=
  jsSortE (comparatorE pkgs) list

/-- `getOrderedPackages` from src/packages.ts with the Host's `readdir`
result and the per-directory manifests supplied explicitly. -/
def getOrderedPackages (packages : List String) (readJson : String → PackageJson) :
    Except String (List String) :=
  sortDependencys packages (packages.map readJson)

/-- Pure insertion step for a total comparator. -/
def insRevP {α : Type} (cmp : α → α → Int) (x : α) : List α → List α
  | [] => [x]
  | y :: r => if cmp y x > 0 then y :: insRevP cmp x r else x :: y :: r

def jsInsertP {α : Type} (cmp : α → α → Int) (sorted : List α) (x : α) : List α :=
  (insRevP cmp x sorted.reverse).reverse

def jsSortAuxP {α : Type} (cmp : α → α → Int) : List α → List α → List α
  | acc, [] => acc
  | acc, x :: rest => jsSortAuxP cmp (jsInsertP cmp acc x) rest

/-- Pure insertion sort: the value `jsSortE` computes when the comparator
never throws. -/
def jsSortP {α : Type} (cmp : α → α → Int) (l : List α) : List α :=
  jsSortAuxP cmp [] l

theorem comparatorE_ok (pkgs : List PackageJson) (x y : String)
    (hx : (findPkg x pkgs).isOk = true) (hy : (findPkg y pkgs).isOk = true) :
    comparatorE pkgs x y = .ok (cmpP pkgs x y) := by
  cases hex : findPkg x pkgs with
  | error e => rw [hex] at hx; exact absurd hx (by simp [Except.isOk, Except.toBool])
  | ok px =>
    cases hey : findPkg y pkgs with
    | error e => rw [hey] at hy; exact absurd hy (by simp [Except.isOk, Except.toBool])
    | ok py =>
      simp only [comparatorE, cmpP, dependsOn, hex, hey]
      by_cases h1 : containsDependency x py
      · simp [h1]
      · by_cases h2 : containsDependency y px
        · simp [h1, h2]
        · simp [h1, h2]

theorem insRevE_ok {α : Type} (cmp : α → α → Except String Int)
    (cmpPure : α → α → Int) (S : List α)
    (hcmp : ∀ a ∈ S, ∀ b ∈ S, cmp a b = .ok (cmpPure a b)) :
    ∀ (r : List α) (x : α), x ∈ S → (∀ z ∈ r, z ∈ S) →
      insRevE cmp x r = .ok (insRevP cmpPure x r) := by
  intro r
  induction r with
  | nil => intro x _ _; rfl
  | cons y r' ih =>
      intro x hx hr
      have hy : y ∈ S := hr y (by simp)
      simp only [insRevE, insRevP, hcmp y hy x hx]
      by_cases ho : cmpPure y x > 0
      · rw [if_pos ho, if_pos ho, ih x hx (fun z hz => hr z (List.mem_cons_of_mem y hz))]
      · rw [if_neg ho, if_neg ho]

theorem jsInsertE_ok {α : Type} (cmp : α → α → Except String Int)
    (cmpPure : α → α → Int) (S : List α)
    (hcmp : ∀ a ∈ S, ∀ b ∈ S, cmp a b = .ok (cmpPure a b))
    (sorted : List α) (x : α) (hx : x ∈ S) (hs : ∀ z ∈ sorted, z ∈ S) :
    jsInsertE cmp sorted x = .ok (jsInsertP cmpPure sorted x) := by
  unfold jsInsertE jsInsertP
  rw [insRevE_ok cmp cmpPure S hcmp sorted.reverse x hx
    (fun z hz => hs z (List.mem_reverse.mp hz))]

theorem insRevP_perm {α : Type} (cmp : α → α → Int) (x : α) :
    ∀ r : List α, (insRevP cmp x r).Perm (x :: r) := by
  intro r
  induction r with
  | nil => exact List.Perm.refl [x]
  | cons y r' ih =>
      unfold insRevP
      by_cases h : cmp y x > 0
      · rw [if_pos h]
        exact List.Perm.trans (List.Perm.cons y ih) (List.Perm.swap x y r')
      · rw [if_neg h]

theorem insRevP_mem {α : Type} (cmp : α → α → Int) (x : α) (r : List α) (z : α) :
    z ∈ insRevP cmp x r ↔ z = x ∨ z ∈ r := by
  rw [(insRevP_perm cmp x r).mem_iff, List.mem_cons]

theorem jsInsertP_perm {α : Type} (cmp : α → α → Int) (sorted : List α) (x : α) :
    (jsInsertP cmp sorted x).Perm (x :: sorted) := by
  unfold jsInsertP
  exact (List.reverse_perm _).trans
    ((insRevP_perm cmp x sorted.reverse).trans
      (List.Perm.cons x (List.reverse_perm sorted)))

theorem jsSortAuxE_ok {α : Type} (cmp : α → α → Except String Int)
    (cmpPure : α → α → Int) (S : List α)
    (hcmp : ∀ a ∈ S, ∀ b ∈ S, cmp a b = .ok (cmpPure a b)) :
    ∀ (l acc : List α), (∀ z ∈ acc, z ∈ S) → (∀ z ∈ l, z ∈ S) →
      jsSortAuxE cmp acc l = .ok (jsSortAuxP cmpPure acc l) := by
  intro l
  induction l with
  | nil => intro acc _ _; rfl
  | cons x rest ih =>
      intro acc hacc hl
      have hx : x ∈ S := hl x (by simp)
      simp only [jsSortAuxE, jsSortAuxP,
        jsInsertE_ok cmp cmpPure S hcmp acc x hx hacc]
      have hacc2 : ∀ z ∈ jsInsertP cmpPure acc x, z ∈ S := by
        intro z hz
        rcases List.mem_cons.mp ((jsInsertP_perm cmpPure acc x).mem_iff.mp hz) with h | h
        · rw [h]; exact hx
        · exact hacc z h
      exact ih (jsInsertP cmpPure acc x) hacc2
        (fun z hz => hl z (List.mem_cons_of_mem x hz))

theorem jsSortAuxP_perm {α : Type} (cmp : α → α → Int) :
    ∀ (l acc : List α), (jsSortAuxP cmp acc l).Perm (acc ++ l) := by
  intro l
  induction l with
  | nil => intro acc; simp [jsSortAuxP]
  | cons x rest ih =>
      intro acc
      exact (ih (jsInsertP cmp acc x)).trans
        (((jsInsertP_perm cmp acc x).append_right rest).trans List.perm_middle.symm)

theorem jsSortP_perm {α : Type} (cmp : α → α → Int) (l : List α) :
    (jsSortP cmp l).Perm l := by
  unfold jsSortP
  simpa using jsSortAuxP_perm cmp l []

theorem sortDependencys_ok_of_resolvable (list : List String)
    (pkgs : List PackageJson)
    (hres : ∀ x ∈ list, (findPkg x pkgs).isOk = true) :
    sortDependencys list pkgs = .ok (jsSortP (cmpP pkgs) list)
      ∧ (jsSortP (cmpP pkgs) list).Perm list := by
  refine ⟨?_, jsSortP_perm (cmpP pkgs) list⟩
  unfold sortDependencys jsSortE jsSortP
  exact jsSortAuxE_ok (comparatorE pkgs) (cmpP pkgs) list
    (fun a ha b hb => comparatorE_ok pkgs a b (hres a ha) (hres b hb))
    list [] (by simp) (fun z hz => hz)

/-- Package set for the claim C7 counterexample: `a` declares a dependency
`ghost` that matches no discovered package. -/
def c7Pkgs : List PackageJson :=
  [⟨"a", "1.0.0", [], [("ghost", "*")]⟩, ⟨"b", "1.0.0", [], []⟩]

/-- Claim C7 counterexample: package `a` declares the dependency `ghost`,
no discovered package is named `ghost`, yet `sortDependencys` succeeds —
the ordering ignores dependency names with no matching package instead of
failing. -/
theorem sortDependencys_unknown_dep_counterexample :
    sortDependencys ["a", "b"] c7Pkgs = .ok ["a", "b"]
      ∧ dependsOn c7Pkgs "a" "ghost" = true
      ∧ (∀ p ∈ c7Pkgs, p.name ≠ "ghost") := by
  refine ⟨by rfl, by decide, by decide⟩

/-- Claim C7 (amended): dependency names that match no discovered package
are ignored by the ordering; `sortDependencys` succeeds (with a permutation
of the input) whenever every package in the list has a manifest with a
matching name, regardless of what dependency names the manifests declare;
the `'No matching package.json found'` error concerns the compared list
entries themselves, not their declared dependencies. -/
theorem sortDependencys_ignores_unknown_deps (list : List String)
    (pkgs : List PackageJson)
    (hres : ∀ x ∈ list, (findPkg x pkgs).isOk = true) :
    (∃ out, sortDependencys list pkgs = .ok out ∧ out.Perm list)
      ∧ (∀ x ∈ list, ∀ d : String,
          dependsOn pkgs x d = true → (∀ p ∈ pkgs, p.name ≠ d) →
          ∃ out, sortDependencys list pkgs = .ok out) := by
  obtain ⟨hok, hperm⟩ := sortDependencys_ok_of_resolvable list pkgs hres
  exact ⟨⟨_, hok, hperm⟩, fun _ _ _ _ _ => ⟨_, hok⟩⟩

theorem sortDependencys_ignores_unknown_deps_witness :
    (∃ out, sortDependencys ["a", "b"] c7Pkgs = .ok out ∧ out.Perm ["a", "b"])
      ∧ (∀ x ∈ ["a", "b"], ∀ d : String,
          dependsOn c7Pkgs x d = true → (∀ p ∈ c7Pkgs, p.name ≠ d) →
          ∃ out, sortDependencys ["a", "b"] c7Pkgs = .ok out) :=
  sortDependencys_ignores_unknown_deps ["a", "b"] c7Pkgs (by decide)

/-- Package set for the claim C1 counterexample: the only dependency edge is
`a` → `c` (a DAG of direct edges only), and `b` is unrelated to both. -/
def c1Pkgs : List PackageJson :=
  [⟨"a", "1.0.0", [], [("c", "1.0.0")]⟩,
   ⟨"b", "1.0.0", [], []⟩,
   ⟨"c", "1.0.0", [], []⟩]

/-- Claim C1 counterexample: on the discovered order `[a, b, c]` with the
single direct edge "`a` depends on `c`" — a DAG with only direct edges —
the comparator-driven sort returns `[a, b, c]`: the unrelated package `b`
stops the right-to-left scan at a zero comparison, so `a` and `c` are never
compared and the dependency `c` ends up after its dependent `a`. -/
theorem sortDependencys_direct_dag_counterexample :
    sortDependencys ["a", "b", "c"] c1Pkgs = .ok ["a", "b", "c"]
      ∧ dependsOn c1Pkgs "a" "c" = true
      ∧ (∀ x ∈ ["a", "b", "c"], ∀ y ∈ ["a", "b", "c"],
          dependsOn c1Pkgs x y = true → x = "a" ∧ y = "c")
      ∧ List.indexOf "a" ["a", "b", "c"] < List.indexOf "c" ["a", "b", "c"] := by
  refine ⟨by rfl, by decide, by decide, by decide⟩

/-- The direct dependency edge relation of a discovered package set,
restricted to the discovered list. -/
def depEdge (pkgs : List PackageJson) (l : List String) (a b : String) : Prop :=
  a ∈ l ∧ b ∈ l ∧ dependsOn pkgs a b = true

theorem depOrder_irrefl (pkgs : List PackageJson) (l : List String)
    (hacyc : ∀ x, ¬ Relation.TransGen (depEdge pkgs l) x x) :
    ∀ x ∈ l, dependsOn pkgs x x = false := by
  intro x hx
  by_contra h
  rw [Bool.not_eq_false] at h
  exact hacyc x (Relation.TransGen.single ⟨hx, hx, h⟩)

theorem depOrder_asymm (pkgs : List PackageJson) (l : List String)
    (hacyc : ∀ x, ¬ Relation.TransGen (depEdge pkgs l) x x) :
    ∀ x ∈ l, ∀ y ∈ l, dependsOn pkgs x y = true → dependsOn pkgs y x = true → False := by
  intro x hx y hy hxy hyx
  exact hacyc x (Relation.TransGen.head ⟨hx, hy, hxy⟩
    (Relation.TransGen.single ⟨hy, hx, hyx⟩))

theorem depOrder_trans (pkgs : List PackageJson) (l : List String)
    (htotal : ∀ x ∈ l, ∀ y ∈ l, x ≠ y →
      dependsOn pkgs x y = true ∨ dependsOn pkgs y x = true)
    (hacyc : ∀ x, ¬ Relation.TransGen (depEdge pkgs l) x x) :
    ∀ x ∈ l, ∀ y ∈ l, ∀ z ∈ l, dependsOn pkgs x y = true →
      dependsOn pkgs y z = true → dependsOn pkgs x z = true := by
  intro x hx y hy z hz hxy hyz
  by_cases hxz : x = z
  · exfalso
    subst hxz
    exact depOrder_asymm pkgs l hacyc x hx y hy hxy hyz
  · rcases htotal x hx z hz hxz with h | h
    · exact h
    · exfalso
      exact hacyc x (Relation.TransGen.head ⟨hx, hy, hxy⟩
        (Relation.TransGen.head ⟨hy, hz, hyz⟩
          (Relation.TransGen.single ⟨hz, hx, h⟩)))

theorem insRevP_sortedRev (pkgs : List PackageJson) (l : List String)
    (htotal : ∀ x ∈ l, ∀ y ∈ l, x ≠ y →
      dependsOn pkgs x y = true ∨ dependsOn pkgs y x = true)
    (hacyc : ∀ x, ¬ Relation.TransGen (depEdge pkgs l) x x) :
    ∀ (r : List String) (x : String), x ∈ l → (∀ z ∈ r, z ∈ l) → x ∉ r →
      r.Pairwise (fun a b => dependsOn pkgs b a = false) →
      (insRevP (cmpP pkgs) x r).Pairwise (fun a b => dependsOn pkgs b a = false) := by
  intro r
  induction r with
  | nil =>
      intro x _ _ _ _
      simp [insRevP]
  | cons y r' ih =>
      intro x hxl hr hxnotin hpw
      have hyl : y ∈ l := hr y (by simp)
      obtain ⟨hy_head, hpw'⟩ := List.pairwise_cons.mp hpw
      have hxy_ne : x ≠ y := fun he => hxnotin (he ▸ List.mem_cons_self y r')
      unfold insRevP
      by_cases hDxy : dependsOn pkgs x y = true
      · -- the right entry x's manifest lists y: comparator is -1, scan stops
        have hcmp : ¬ cmpP pkgs y x > 0 := by
          unfold cmpP
          rw [if_pos hDxy]
          decide
        rw [if_neg hcmp]
        refine List.pairwise_cons.mpr ⟨?_, hpw⟩
        intro z hz
        rcases List.mem_cons.mp hz with hzy | hzr
        · subst hzy
          by_contra hc
          rw [Bool.not_eq_false] at hc
          exact depOrder_asymm pkgs l hacyc x hxl z hyl hDxy hc
        · by_contra hc
          rw [Bool.not_eq_false] at hc
          have hzl : z ∈ l := hr z (List.mem_cons_of_mem y hzr)
          have hzy : dependsOn pkgs z y = true :=
            depOrder_trans pkgs l htotal hacyc z hzl x hxl y hyl hc hDxy
          rw [hy_head z hzr] at hzy
          exact absurd hzy (by decide)
      · by_cases hDyx : dependsOn pkgs y x = true
        · -- the left entry y's manifest lists x: comparator is 1, y shifts
          have hcmp : cmpP pkgs y x > 0 := by
            unfold cmpP
            rw [if_neg hDxy, if_pos hDyx]
            decide
          rw [if_pos hcmp]
          refine List.pairwise_cons.mpr
            ⟨?_, ih x hxl (fun z hz => hr z (List.mem_cons_of_mem y hz))
              (fun hxr => hxnotin (List.mem_cons_of_mem y hxr)) hpw'⟩
          intro z hz
          rcases (insRevP_mem (cmpP pkgs) x r' z).mp hz with hzx | hzr
          · rw [hzx]
            rwa [Bool.not_eq_true] at hDxy
          · exact hy_head z hzr
        · -- distinct packages with no relation contradict pairwise totality
          exfalso
          rcases htotal x hxl y hyl hxy_ne with h | h
          · exact hDxy h
          · exact hDyx h

theorem jsSortAuxP_sorted (pkgs : List PackageJson) (l : List String)
    (htotal : ∀ x ∈ l, ∀ y ∈ l, x ≠ y →
      dependsOn pkgs x y = true ∨ dependsOn pkgs y x = true)
    (hacyc : ∀ x, ¬ Relation.TransGen (depEdge pkgs l) x x) :
    ∀ (rest acc : List String), (∀ z ∈ acc, z ∈ l) → (∀ z ∈ rest, z ∈ l) →
      rest.Nodup → (∀ z ∈ rest, z ∉ acc) →
      acc.Pairwise (fun u v => dependsOn pkgs u v = false) →
      (jsSortAuxP (cmpP pkgs) acc rest).Pairwise
        (fun u v => dependsOn pkgs u v = false) := by
  intro rest
  induction rest with
  | nil => intro acc _ _ _ _ hpw; exact hpw
  | cons x rest' ih =>
      intro acc hacc hrest hnodup hdisj hpw
      have hx : x ∈ l := hrest x (by simp)
      obtain ⟨hxnot, hnodup'⟩ := List.nodup_cons.mp hnodup
      unfold jsSortAuxP
      apply ih
      · intro z hz
        rcases List.mem_cons.mp ((jsInsertP_perm (cmpP pkgs) acc x).mem_iff.mp hz)
          with h | h
        · rw [h]; exact hx
        · exact hacc z h
      · exact fun z hz => hrest z (List.mem_cons_of_mem x hz)
      · exact hnodup'
      · intro z hz hzin
        rcases List.mem_cons.mp ((jsInsertP_perm (cmpP pkgs) acc x).mem_iff.mp hzin)
          with h | h
        · exact hxnot (h ▸ hz)
        · exact hdisj z (List.mem_cons_of_mem x hz) h
      · have hrev : acc.reverse.Pairwise (fun a b => dependsOn pkgs b a = false) :=
          List.pairwise_reverse.mpr hpw
        have hins := insRevP_sortedRev pkgs l htotal hacyc acc.reverse x hx
          (fun z hz => hacc z (List.mem_reverse.mp hz))
          (fun hxr => hdisj x (by simp) (List.mem_reverse.mp hxr))
          hrev
        exact List.pairwise_reverse.mpr hins

/-- Claim C1 (amended): the comparator-driven sort orders every dependency
before its dependent only when the DAG of direct edges relates **every pair**
of distinct packages: under that totality (with resolvable, distinct
entries), `sortDependencys` succeeds and in the returned order every
declared dependency precedes its dependent.  With an unrelated package
between dependent and dependency, the insertion scan stops at a zero
comparison and the guarantee fails (see the counterexample). -/
theorem sortDependencys_total_dag_ordered (list : List String)
    (pkgs : List PackageJson)
    (hres : ∀ x ∈ list, (findPkg x pkgs).isOk = true)
    (hnodup : list.Nodup)
    (htotal : ∀ x ∈ list, ∀ y ∈ list, x ≠ y →
      dependsOn pkgs x y = true ∨ dependsOn pkgs y x = true)
    (hacyc : ∀ x, ¬ Relation.TransGen (depEdge pkgs list) x x) :
    ∃ out, sortDependencys list pkgs = .ok out ∧ out.Perm list
      ∧ ∀ a ∈ list, ∀ b ∈ list, dependsOn pkgs a b = true →
          List.indexOf b out < List.indexOf a out := by
  obtain ⟨hok, hperm⟩ := sortDependencys_ok_of_resolvable list pkgs hres
  refine ⟨jsSortP (cmpP pkgs) list, hok, hperm, ?_⟩
  have hsorted : (jsSortP (cmpP pkgs) list).Pairwise
      (fun u v => dependsOn pkgs u v = false) := by
    unfold jsSortP
    exact jsSortAuxP_sorted pkgs list htotal hacyc list [] (by simp)
      (fun z hz => hz) hnodup (by simp) (by simp)
  set out := jsSortP (cmpP pkgs) list with hout
  intro a ha b hb hdep
  have haout : a ∈ out := hperm.mem_iff.mpr ha
  have hbout : b ∈ out := hperm.mem_iff.mpr hb
  have hia : List.indexOf a out < out.length := List.indexOf_lt_length.mpr haout
  have hib : List.indexOf b out < out.length := List.indexOf_lt_length.mpr hbout
  by_contra hcon
  push_neg at hcon
  rcases Nat.lt_or_eq_of_le hcon with hlt | heq
  · have hpg := List.pairwise_iff_get.mp hsorted ⟨_, hia⟩ ⟨_, hib⟩ hlt
    rw [List.indexOf_get hia, List.indexOf_get hib] at hpg
    rw [hpg] at hdep
    exact absurd hdep (by decide)
  · have : a = b := (List.indexOf_inj haout hbout).mp heq
    subst this
    have hirr := depOrder_irrefl pkgs list hacyc a ha
    rw [hdep] at hirr
    exact absurd hirr (by decide)

/-- Package set used in the concrete witness for the amended claim C1: a
chain where `a` depends on both `b` and `c`, and `b` depends on `c`. -/
def c1wPkgs : List PackageJson :=
  [⟨"a", "1.0.0", [], [("b", "1.0.0"), ("c", "1.0.0")]⟩,
   ⟨"b", "1.0.0", [], [("c", "1.0.0")]⟩,
   ⟨"c", "1.0.0", [], []⟩]

/-- Rank function showing the witness package set's edges are acyclic. -/
def rank (s : String) : Nat :=
  if s = "a" then 2 else if s = "b" then 1 else 0

theorem sortDependencys_total_dag_ordered_witness :
    ∃ out, sortDependencys ["a", "b", "c"] c1wPkgs = .ok out
      ∧ out.Perm ["a", "b", "c"]
      ∧ ∀ a ∈ ["a", "b", "c"], ∀ b ∈ ["a", "b", "c"],
          dependsOn c1wPkgs a b = true →
          List.indexOf b out < List.indexOf a out :=
  sortDependencys_total_dag_ordered ["a", "b", "c"] c1wPkgs
    (by decide) (by decide) (by decide)
    (by
      intro x hcyc
      have hsub : ∀ p q : String, depEdge c1wPkgs ["a", "b", "c"] p q →
          rank p > rank q := by
        intro p q h
        obtain ⟨hp, hq, hd⟩ := h
        fin_cases hp <;> fin_cases hq <;> revert hd <;> decide
      have : ∀ p q : String, Relation.TransGen (depEdge c1wPkgs ["a", "b", "c"]) p q →
          rank p > rank q := by
        intro p q hpq
        induction hpq with
        | single h => exact hsub _ _ h
        | tail _ h ih => exact Nat.lt_trans (hsub _ _ h) ih
      exact Nat.lt_irrefl _ (this x x hcyc))

/-! ## PublishCoordinator: `runCommandPublish` (src/index.ts)

`runCommandPublish` is modelled as a function from the results its external
collaborators produce (registry metadata, git command outputs, the commits
`getReleaseCommits` resolves) to the trace of commands it executes together
with its outcome.  Each trace constructor corresponds to one concrete
subprocess invocation or side effect in the source. -/

inductive Eff where
  /-- `git tag` in the package directory (list local tags). -/
  | gitTagList (dir : String)
  /-- `git rev-list --abbrev-commit -n 1 <tag>`. -/
  | gitRevList (dir tag : String)
  /-- `git tag <tag> <hash>`: create the release tag. -/
  | gitCreateTag (dir tag hash : String)
  /-- `git push --tags`. -/
  | gitPushTags (dir : String)
  /-- `git remote -v`. -/
  | gitRemoteV (dir : String)
  /-- `git clone <url> publish-temp`. -/
  | gitClone (dir url dest : String)
  /-- `git checkout <tag>` in the temporary clone. -/
  | gitCheckout (dir tag : String)
  /-- `npm install` in the clone's package directory. -/
  | npmInstall (dir : String)
  /-- `npm publish` in the clone's package directory. -/
  | npmPublish (dir : String)
  /-- A `console.log` report. -/
  | log (msg : String)
  /-- `fsRemove` of a directory. -/
  | remove (path : String)
deriving DecidableEq, Repr

/-- The external results `runCommandPublish` consumes: `lastVersion` is the
registry's dist-tag version from `getReleaseData` (absent when never
published), `tagList` the trimmed stdout of `git tag`, `tagCommitHash` the
trimmed stdout of the `rev-list` call, `releaseCommits` the
(hash, updatesPackageJson) pairs `getReleaseCommits` resolves together with
the trace `releaseCommitsEffs` of the git commands it runs, and `remoteUrl`
the url extracted from `git remote -v`. -/
structure PublishEnv where
  packageDir : String
  pkgName : String
  pkgVersion : String
  lastVersion : Option String
  tagList : String
  tagCommitHash : String
  releaseCommits : List (String × Bool)
  releaseCommitsEffs : List Eff
  remoteUrl : String

/-- One character of the dynamically built regular expression
`new RegExp('^' + tag + '$', 'm')`: `.` matches any character, all other
characters of the computed tag match literally (other metacharacters do not
occur in package names/versions and are not modelled). -/
def regexLineChar (p c : Char) : Bool := p == '.' || p == c

def regexLineMatch : List Char → List Char → Bool
  | [], [] => true
  | p :: ps, c :: cs => regexLineChar p c && regexLineMatch ps cs
  | _, _ => false

/-- Split a character sequence at newlines (the lines the `m` flag anchors
to). -/
def splitLinesAux : List Char → List Char → List (List Char)
  | [], cur => [cur.reverse]
  | '\n' :: rest, cur => cur.reverse :: splitLinesAux rest []
  | c :: rest, cur => splitLinesAux rest (c :: cur)

/-- `stdout.match(new RegExp('^' + tag + '$', 'm'))` is truthy: some whole
line of the tag list matches the tag pattern. -/
def tagExists (tagList tag : String) : Bool :=
  (splitLinesAux tagList.toList []).any (fun line => regexLineMatch tag.toList line)

/-- The chain `runCommandPublish` always runs after the tag check:
push tags, read the remote, clone it into `publish-temp`, check out the
release tag there, install and publish from the isolated clone, remove the
clone. -/
def publishChain (env : PublishEnv) (tag : String) : List Eff :=
  [Eff.gitPushTags "..",
   Eff.gitRemoteV "..",
   Eff.gitClone ".." env.remoteUrl "publish-temp",
   Eff.gitCheckout "../publish-temp" tag,
   Eff.npmInstall ("../publish-temp/packages/" ++ env.packageDir),
   Eff.npmPublish ("../publish-temp/packages/" ++ env.packageDir),
   Eff.remove "publish-temp"]

/-- `runCommandPublish` from src/index.ts: already-published check, release
tag computation, tag-existence check (skipping only the tag creation), then
the unconditional push/clone/publish chain; a missing release commit throws
after removing the temporary clone directory. -/
def runCommandPublish (env : PublishEnv) : List Eff × Except String Bool :=
  if env.lastVersion = some env.pkgVersion then
    ([Eff.log ("No publish for " ++ env.packageDir ++ " requried; Already published to npm")],
      .ok true)
  else
    let tag := env.pkgName ++ "-" ++ env.pkgVersion
    if tagExists env.tagList tag then
      ([Eff.gitTagList env.packageDir,
        Eff.gitRevList env.packageDir tag,
        Eff.log ("No git tag for " ++ env.packageDir
          ++ " requried; Already tagged commit " ++ env.tagCommitHash)]
        ++ publishChain env tag, .ok false)
    else
      match env.releaseCommits.find? (fun c => c.2) with
      | none =>
          ([Eff.gitTagList env.packageDir] ++ env.releaseCommitsEffs
            ++ [Eff.remove "publish-temp"],
            .error "No release commit found")
      | some c =>
          ([Eff.gitTagList env.packageDir] ++ env.releaseCommitsEffs
            ++ [Eff.gitCreateTag ".." tag c.1]
            ++ publishChain env tag, .ok false)

/-- Environment for the claim C2 counterexample: version `1.1.0` is not yet
published but the tag `a-1.1.0` already exists locally. -/
def c2Env : PublishEnv :=
  { packageDir := "a", pkgName := "a", pkgVersion := "1.1.0",
    lastVersion := some "1.0.0",
    tagList := "a-1.0.0\na-1.1.0",
    tagCommitHash := "abc1234",
    releaseCommits := [], releaseCommitsEffs := [],
    remoteUrl := "git@example.com:r.git" }

/-- Claim C2 counterexample: with the release tag `a-1.1.0` already in the
local tag list, `runCommandPublish` performs no tagging but still pushes
tags, clones the remote and publishes from the clone — the push/clone chain
is sequenced after the tag check unconditionally, so "no pushing and no
cloning" is false. -/
theorem runCommandPublish_already_tagged_counterexample :
    tagExists c2Env.tagList ("a-1.1.0") = true
      ∧ Eff.gitPushTags ".." ∈ (runCommandPublish c2Env).1
      ∧ Eff.gitClone ".." "git@example.com:r.git" "publish-temp"
          ∈ (runCommandPublish c2Env).1
      ∧ Eff.npmPublish "../publish-temp/packages/a" ∈ (runCommandPublish c2Env).1
      ∧ (runCommandPublish c2Env).2 = .ok false := by
  refine ⟨by decide, by decide, by decide, by decide, by rfl⟩

/-- Claim C2 (amended): when the computed release tag already exists in the
local tag list (and the manifest version is not the last published one),
`runCommandPublish` creates no tag and reports the commit the existing tag
points to — but it still pushes tags, clones the remote and publishes from
the isolated clone. -/
theorem runCommandPublish_already_tagged (env : PublishEnv)
    (hver : ¬ env.lastVersion = some env.pkgVersion)
    (htag : tagExists env.tagList (env.pkgName ++ "-" ++ env.pkgVersion) = true) :
    (∀ d t h : String, Eff.gitCreateTag d t h ∉ (runCommandPublish env).1)
      ∧ Eff.log ("No git tag for " ++ env.packageDir
          ++ " requried; Already tagged commit " ++ env.tagCommitHash)
          ∈ (runCommandPublish env).1
      ∧ Eff.gitPushTags ".." ∈ (runCommandPublish env).1
      ∧ Eff.gitClone ".." env.remoteUrl "publish-temp" ∈ (runCommandPublish env).1
      ∧ Eff.npmPublish ("../publish-temp/packages/" ++ env.packageDir)
          ∈ (runCommandPublish env).1
      ∧ (runCommandPublish env).2 = .ok false := by
  unfold runCommandPublish
  rw [if_neg hver, if_pos htag]
  refine ⟨?_, by simp [publishChain], by simp [publishChain], by simp [publishChain],
    by simp [publishChain], by rfl⟩
  intro d t h
  simp [publishChain]

theorem runCommandPublish_already_tagged_witness :
    (∀ d t h : String, Eff.gitCreateTag d t h ∉ (runCommandPublish c2Env).1)
      ∧ Eff.log ("No git tag for " ++ c2Env.packageDir
          ++ " requried; Already tagged commit " ++ c2Env.tagCommitHash)
          ∈ (runCommandPublish c2Env).1
      ∧ Eff.gitPushTags ".." ∈ (runCommandPublish c2Env).1
      ∧ Eff.gitClone ".." c2Env.remoteUrl "publish-temp" ∈ (runCommandPublish c2Env).1
      ∧ Eff.npmPublish ("../publish-temp/packages/" ++ c2Env.packageDir)
          ∈ (runCommandPublish c2Env).1
      ∧ (runCommandPublish c2Env).2 = .ok false :=
  runCommandPublish_already_tagged c2Env (by decide) (by decide)

end Hinkelstein
